import Mathlib

/-!
Verification of the OafLang concurrency runtime against its specification.

The atomic primitives are embedded directly from
`src/Runtime/concurrency/src/atomic_ops.c`: a nullable pointer to an atomic
cell is an `Option` of the cell's value, machine integers are `Int` (for
`int64_t`) and `Nat` (for `uint64_t`) with explicit two's-complement / modular
wraparound at 2^64, and each C function becomes a pure function returning its
result together with the updated cell contents.

The channel, lightweight-thread scheduler, thread pool, future layer and
parallel algorithms are declared and exercised by the repository's example
programs but their implementations are not part of the provided sources;
those components are modelled from the specification, as marked on each
definition.
-/

namespace Oaf

/-- Two's-complement wraparound of an integer into the `int64_t` range
`[-2^63, 2^63)`, the semantics C11 gives to atomic arithmetic on signed
64-bit integers. -/
def wrapI64 (x : Int) : Int :=
  (x + 9223372036854775808) % 18446744073709551616 - 9223372036854775808

/-- Modular reduction of an integer into the `uint64_t` range `[0, 2^64)`. -/
def wrapU64 (x : Int) : Nat :=
  (x % 18446744073709551616).toNat

/-- `oaf_atomic_i64_init` from atomic_ops.c: null pointer is a no-op,
otherwise the cell receives the initial value. -/
def oaf_atomic_i64_init (cell : Option Int) (initial_value : Int) : Option Int :=
  match cell with
  | none => none
  | some _ => some initial_value

/-- `oaf_atomic_i64_load` from atomic_ops.c: returns 0 on a null pointer,
otherwise the cell's current value. -/
def oaf_atomic_i64_load (cell : Option Int) : Int :=
  match cell with
  | none => 0
  | some current => current

/-- `oaf_atomic_i64_store` from atomic_ops.c. -/
def oaf_atomic_i64_store (cell : Option Int) (value : Int) : Option Int :=
  match cell with
  | none => none
  | some _ => some value

/-- `oaf_atomic_i64_fetch_add` from atomic_ops.c: returns the pre-operation
value and stores the two's-complement wraparound sum. -/
def oaf_atomic_i64_fetch_add (cell : Option Int) (value : Int) : Int × Option Int :=
  match cell with
  | none => (0, none)
  | some current => (current, some (wrapI64 (current + value)))

/-- `oaf_atomic_i64_fetch_sub` from atomic_ops.c. -/
def oaf_atomic_i64_fetch_sub (cell : Option Int) (value : Int) : Int × Option Int :=
  match cell with
  | none => (0, none)
  | some current => (current, some (wrapI64 (current - value)))

/-- `oaf_atomic_i64_compare_exchange` from atomic_ops.c: returns 0 when either
pointer is null; otherwise, on equality stores `desired` and returns 1 leaving
`expected` untouched, and on inequality writes the current value into
`expected` and returns 0. The result triple is
(return value, new cell contents, new `expected` contents). -/
def oaf_atomic_i64_compare_exchange (cell : Option Int) (expected : Option Int)
    (desired : Int) : Nat × Option Int × Option Int :=
  match cell, expected with
  | none, e => (0, none, e)
  | c, none => (0, c, none)
  | some current, some expectedValue =>
    if current = expectedValue then (1, some desired, some expectedValue)
    else (0, some current, some current)

/-- `oaf_atomic_u64_init` from atomic_ops.c. -/
def oaf_atomic_u64_init (cell : Option Nat) (initial_value : Nat) : Option Nat :=
  match cell with
  | none => none
  | some _ => some initial_value

/-- `oaf_atomic_u64_load` from atomic_ops.c. -/
def oaf_atomic_u64_load (cell : Option Nat) : Nat :=
  match cell with
  | none => 0
  | some current => current

/-- `oaf_atomic_u64_store` from atomic_ops.c. -/
def oaf_atomic_u64_store (cell : Option Nat) (value : Nat) : Option Nat :=
  match cell with
  | none => none
  | some _ => some value

/-- `oaf_atomic_u64_fetch_add` from atomic_ops.c: modular arithmetic of
`uint64_t`. -/
def oaf_atomic_u64_fetch_add (cell : Option Nat) (value : Nat) : Nat × Option Nat :=
  match cell with
  | none => (0, none)
  | some current => (current, some (wrapU64 ((current : Int) + value)))

/-- `oaf_atomic_u64_fetch_sub` from atomic_ops.c. -/
def oaf_atomic_u64_fetch_sub (cell : Option Nat) (value : Nat) : Nat × Option Nat :=
  match cell with
  | none => (0, none)
  | some current => (current, some (wrapU64 ((current : Int) - value)))

/-- `oaf_atomic_u64_compare_exchange` from atomic_ops.c. -/
def oaf_atomic_u64_compare_exchange (cell : Option Nat) (expected : Option Nat)
    (desired : Nat) : Nat × Option Nat × Option Nat :=
  match cell, expected with
  | none, e => (0, none, e)
  | c, none => (0, c, none)
  | some current, some expectedValue =>
    if current = expectedValue then (1, some desired, some expectedValue)
    else (0, some current, some current)

lemma wrapI64_zero : wrapI64 0 = 0 := by decide

lemma wrapI64_add_left (a b : Int) : wrapI64 (wrapI64 a + b) = wrapI64 (a + b) := by
  unfold wrapI64
  omega

lemma wrapI64_range (x : Int) :
    -9223372036854775808 ≤ wrapI64 x ∧ wrapI64 x < 9223372036854775808 := by
  unfold wrapI64
  omega

lemma wrapI64_congr (x : Int) : (wrapI64 x - x) % 18446744073709551616 = 0 := by
  unfold wrapI64
  omega

/-- C1: for every non-null cell and every pair of values, compare_exchange
replaces the cell's value with `desired` exactly when the current value equals
`*expected` and then returns 1; otherwise it returns 0 and writes the current
value into `*expected`, with no spurious failure, for both the `i64` and `u64`
variants. -/
theorem compare_exchange_strong_spec :
    (∀ current expectedValue desired : Int,
      (current = expectedValue →
        oaf_atomic_i64_compare_exchange (some current) (some expectedValue) desired =
          (1, some desired, some expectedValue)) ∧
      (current ≠ expectedValue →
        oaf_atomic_i64_compare_exchange (some current) (some expectedValue) desired =
          (0, some current, some current))) ∧
    (∀ current expectedValue desired : Nat,
      (current = expectedValue →
        oaf_atomic_u64_compare_exchange (some current) (some expectedValue) desired =
          (1, some desired, some expectedValue)) ∧
      (current ≠ expectedValue →
        oaf_atomic_u64_compare_exchange (some current) (some expectedValue) desired =
          (0, some current, some current))) := by
  constructor
  · intro current expectedValue desired
    constructor
    · intro h
      simp [oaf_atomic_i64_compare_exchange, h]
    · intro h
      simp [oaf_atomic_i64_compare_exchange, h]
  · intro current expectedValue desired
    constructor
    · intro h
      simp [oaf_atomic_u64_compare_exchange, h]
    · intro h
      simp [oaf_atomic_u64_compare_exchange, h]

/-- Witness for C1: concrete success and failure runs of both variants. -/
theorem compare_exchange_strong_spec_witness :
    oaf_atomic_i64_compare_exchange (some 5) (some 5) 9 = (1, some 9, some 5) ∧
    oaf_atomic_i64_compare_exchange (some 5) (some 6) 9 = (0, some 5, some 5) ∧
    oaf_atomic_u64_compare_exchange (some 7) (some 7) 3 = (1, some 3, some 7) ∧
    oaf_atomic_u64_compare_exchange (some 7) (some 8) 3 = (0, some 7, some 7) :=
  ⟨(compare_exchange_strong_spec.1 5 5 9).1 rfl,
   (compare_exchange_strong_spec.1 5 6 9).2 (by decide),
   (compare_exchange_strong_spec.2 7 7 3).1 rfl,
   (compare_exchange_strong_spec.2 7 8 3).2 (by decide)⟩

/-- C2: fetch_add and fetch_sub on a non-null cell return the pre-operation
value and leave the cell holding the 64-bit wraparound sum or difference, in
both the signed and unsigned variants: the stored value is congruent to
`v + d` (respectively `v - d`) modulo 2^64 and lies in the machine range. -/
theorem fetch_add_sub_spec :
    (∀ v d : Int, ∃ w,
      oaf_atomic_i64_fetch_add (some v) d = (v, some w) ∧
      (w - (v + d)) % 18446744073709551616 = 0 ∧
      -9223372036854775808 ≤ w ∧ w < 9223372036854775808) ∧
    (∀ v d : Int, ∃ w,
      oaf_atomic_i64_fetch_sub (some v) d = (v, some w) ∧
      (w - (v - d)) % 18446744073709551616 = 0 ∧
      -9223372036854775808 ≤ w ∧ w < 9223372036854775808) ∧
    (∀ v d : Nat, ∃ w,
      oaf_atomic_u64_fetch_add (some v) d = (v, some w) ∧
      ((w : Int) - ((v : Int) + d)) % 18446744073709551616 = 0 ∧
      w < 18446744073709551616) ∧
    (∀ v d : Nat, ∃ w,
      oaf_atomic_u64_fetch_sub (some v) d = (v, some w) ∧
      ((w : Int) - ((v : Int) - d)) % 18446744073709551616 = 0 ∧
      w < 18446744073709551616) := by
  refine ⟨fun v d => ⟨wrapI64 (v + d), rfl, wrapI64_congr _, wrapI64_range _⟩,
    fun v d => ⟨wrapI64 (v - d), rfl, wrapI64_congr _, wrapI64_range _⟩,
    fun v d => ⟨wrapU64 ((v : Int) + d), rfl, ?_, ?_⟩,
    fun v d => ⟨wrapU64 ((v : Int) - d), rfl, ?_, ?_⟩⟩ <;>
    unfold wrapU64 <;> omega

/-- C3: every atomic operation applied to a null cell pointer performs no
update and returns its zero/false default, for all twelve entry points of
atomic_ops.c. -/
theorem null_cell_defensive :
    (∀ v : Int, oaf_atomic_i64_init none v = none) ∧
    oaf_atomic_i64_load none = 0 ∧
    (∀ v : Int, oaf_atomic_i64_store none v = none) ∧
    (∀ v : Int, oaf_atomic_i64_fetch_add none v = (0, none)) ∧
    (∀ v : Int, oaf_atomic_i64_fetch_sub none v = (0, none)) ∧
    (∀ (e : Option Int) (v : Int), oaf_atomic_i64_compare_exchange none e v = (0, none, e)) ∧
    (∀ v : Nat, oaf_atomic_u64_init none v = none) ∧
    oaf_atomic_u64_load none = 0 ∧
    (∀ v : Nat, oaf_atomic_u64_store none v = none) ∧
    (∀ v : Nat, oaf_atomic_u64_fetch_add none v = (0, none)) ∧
    (∀ v : Nat, oaf_atomic_u64_fetch_sub none v = (0, none)) ∧
    (∀ (e : Option Nat) (v : Nat), oaf_atomic_u64_compare_exchange none e v = (0, none, e)) := by
  refine ⟨fun _ => rfl, rfl, fun _ => rfl, fun _ => rfl, fun _ => rfl,
    fun e v => by cases e <;> rfl,
    fun _ => rfl, rfl, fun _ => rfl, fun _ => rfl, fun _ => rfl,
    fun e v => by cases e <;> rfl⟩

/-- C10: compare_exchange called with a null `expected` pointer returns 0 and
leaves the cell (null or not) unchanged, never dereferencing the null
`expected` pointer, in both variants. -/
theorem compare_exchange_null_expected :
    (∀ (cell : Option Int) (desired : Int),
      oaf_atomic_i64_compare_exchange cell none desired = (0, cell, none)) ∧
    (∀ (cell : Option Nat) (desired : Nat),
      oaf_atomic_u64_compare_exchange cell none desired = (0, cell, none)) := by
  constructor
  · intro cell desired
    cases cell <;> rfl
  · intro cell desired
    cases cell <;> rfl

/-- Modelled from the spec: the channel implementation (`oaf_channel_*`) is
declared and exercised by the example programs but its source is not in the
repository snapshot. Per §3/§4.2, a channel owns a fixed-capacity FIFO buffer
of opaque values and a closed flag; the buffer is modelled front-first in send
order. -/
structure OafChannel (α : Type) where
  capacity : Nat
  buffer : List α
  closed : Bool
deriving DecidableEq

/-- Modelled from the spec: `init(capacity>0)` fails if capacity is zero,
otherwise yields an open channel with an empty buffer. -/
def oaf_channel_init (α : Type) (capacity : Nat) : Option (OafChannel α) :=
  if capacity = 0 then none else some ⟨capacity, [], false⟩

/-- Modelled from the spec: `try_send` succeeds and stores the value iff the
channel is open and the buffer is not full; otherwise it fails without
blocking. -/
def oaf_channel_try_send {α : Type} (c : OafChannel α) (v : α) : Bool × OafChannel α :=
  if c.closed = true ∨ c.capacity ≤ c.buffer.length then (false, c)
  else (true, ⟨c.capacity, c.buffer ++ [v], c.closed⟩)

/-- Outcome of a `recv` call: a dequeued value, an immediate failure on a
closed empty channel, or suspension of the caller on an open empty channel. -/
inductive RecvOutcome (α : Type) where
  | received (v : α)
  | closedEmpty
  | wouldBlock
deriving DecidableEq

/-- Modelled from the spec: `recv` dequeues FIFO when an item is buffered,
fails immediately when the channel is empty and closed, and otherwise
suspends (modelled as `wouldBlock`, leaving the channel unchanged). -/
def oaf_channel_recv {α : Type} (c : OafChannel α) : RecvOutcome α × OafChannel α :=
  match c.buffer with
  | v :: rest => (RecvOutcome.received v, ⟨c.capacity, rest, c.closed⟩)
  | [] => if c.closed = true then (RecvOutcome.closedEmpty, c) else (RecvOutcome.wouldBlock, c)

/-- Modelled from the spec: `close` marks the channel closed, leaving buffered
values receivable. -/
def oaf_channel_close {α : Type} (c : OafChannel α) : OafChannel α :=
  ⟨c.capacity, c.buffer, true⟩

/-- Sends a list of values in order via `try_send`; the flag is true iff every
send was accepted. -/
def sendAll {α : Type} (c : OafChannel α) : List α → Bool × OafChannel α
  | [] => (true, c)
  | v :: rest =>
    match oaf_channel_try_send c v with
    | (true, c1) => sendAll c1 rest
    | (false, c1) => (false, c1)

/-- Performs `n` successive `recv` calls, collecting the values received
before the first non-success outcome. -/
def recvN {α : Type} (c : OafChannel α) : Nat → List α × OafChannel α
  | 0 => ([], c)
  | n + 1 =>
    match oaf_channel_recv c with
    | (RecvOutcome.received v, c1) =>
      match recvN c1 n with
      | (vs, c2) => (v :: vs, c2)
    | (_, c1) => ([], c1)

lemma sendAll_open {α : Type} :
    ∀ (vs : List α) (cap : Nat) (buf : List α),
      buf.length + vs.length ≤ cap →
      sendAll (⟨cap, buf, false⟩ : OafChannel α) vs = (true, ⟨cap, buf ++ vs, false⟩) := by
  intro vs
  induction vs with
  | nil => intro cap buf h; simp [sendAll]
  | cons v rest ih =>
    intro cap buf h
    have hlt : ¬ cap ≤ buf.length := by
      simp only [List.length_cons] at h
      omega
    have hsend : oaf_channel_try_send (⟨cap, buf, false⟩ : OafChannel α) v =
        (true, ⟨cap, buf ++ [v], false⟩) := by
      simp [oaf_channel_try_send, hlt]
    have hrest := ih cap (buf ++ [v]) (by simp at h ⊢; omega)
    simp [sendAll, hsend, hrest]

lemma recvN_buffered {α : Type} :
    ∀ (vs rest : List α) (cap : Nat) (cl : Bool),
      recvN (⟨cap, vs ++ rest, cl⟩ : OafChannel α) vs.length = (vs, ⟨cap, rest, cl⟩) := by
  intro vs
  induction vs with
  | nil => intro rest cap cl; simp [recvN]
  | cons v tl ih =>
    intro rest cap cl
    simp [recvN, oaf_channel_recv, ih]

/-- C5: from a freshly initialized channel of capacity at least `k`, sending
`k` values via `try_send` succeeds for every one of them, and `k` subsequent
`recv` calls yield exactly those values in send order (FIFO round-trip). -/
theorem channel_fifo_round_trip (α : Type) (cap : Nat) (vs : List α)
    (hcap : 0 < cap) (hlen : vs.length ≤ cap) :
    oaf_channel_init α cap = some ⟨cap, [], false⟩ ∧
    sendAll (⟨cap, [], false⟩ : OafChannel α) vs = (true, ⟨cap, vs, false⟩) ∧
    recvN (⟨cap, vs, false⟩ : OafChannel α) vs.length = (vs, ⟨cap, [], false⟩) := by
  refine ⟨by simp [oaf_channel_init]; omega, ?_, ?_⟩
  · have h := sendAll_open vs cap [] (by simpa using hlen)
    simpa using h
  · have h := recvN_buffered vs [] cap false
    simpa using h

/-- Witness for C5: capacity 2, values 7 then 11 (the example program's two
sends), received back in order. -/
theorem channel_fifo_round_trip_witness :
    oaf_channel_init Nat 2 = some ⟨2, [], false⟩ ∧
    sendAll (⟨2, [], false⟩ : OafChannel Nat) [7, 11] = (true, ⟨2, [7, 11], false⟩) ∧
    recvN (⟨2, [7, 11], false⟩ : OafChannel Nat) 2 = ([7, 11], ⟨2, [], false⟩) :=
  channel_fifo_round_trip Nat 2 [7, 11] (by decide) (by decide)

/-- C6: after `close`, a `recv` on an empty buffer fails immediately; on a
non-empty buffer, successive `recv` calls still succeed and drain the buffer
in order, after which a further `recv` fails. -/
theorem channel_close_semantics (α : Type) (c : OafChannel α) :
    (c.buffer = [] →
      oaf_channel_recv (oaf_channel_close c) = (RecvOutcome.closedEmpty, oaf_channel_close c)) ∧
    recvN (oaf_channel_close c) c.buffer.length = (c.buffer, ⟨c.capacity, [], true⟩) ∧
    (oaf_channel_recv (⟨c.capacity, [], true⟩ : OafChannel α)).1 = RecvOutcome.closedEmpty := by
  refine ⟨?_, ?_, rfl⟩
  · intro h
    simp [oaf_channel_close, oaf_channel_recv, h]
  · have h := recvN_buffered c.buffer [] c.capacity true
    simpa [oaf_channel_close] using h

/-- Witness for C6: a drained closed channel fails immediately, and a closed
channel holding 5 then 6 yields both values before failing. -/
theorem channel_close_semantics_witness :
    oaf_channel_recv (oaf_channel_close (⟨2, [], false⟩ : OafChannel Nat)) =
      (RecvOutcome.closedEmpty, oaf_channel_close (⟨2, [], false⟩ : OafChannel Nat)) ∧
    recvN (oaf_channel_close (⟨2, [5, 6], false⟩ : OafChannel Nat)) 2 = ([5, 6], ⟨2, [], true⟩) ∧
    (oaf_channel_recv (⟨2, [], true⟩ : OafChannel Nat)).1 = RecvOutcome.closedEmpty :=
  ⟨(channel_close_semantics Nat ⟨2, [], false⟩).1 rfl,
   (channel_close_semantics Nat ⟨2, [5, 6], false⟩).2.1,
   (channel_close_semantics Nat ⟨2, [5, 6], false⟩).2.2⟩

/-- Applies a sequence of `oaf_atomic_i64_fetch_add` updates to a shared
counter cell, one per task, in the given execution order. -/
def foldFetchAdds (counter : Option Int) (order : List Int) : Option Int :=
  order.foldl (fun c d => (oaf_atomic_i64_fetch_add c d).2) counter

lemma foldFetchAdds_some :
    ∀ (order : List Int) (a : Int),
      foldFetchAdds (some (wrapI64 a)) order = some (wrapI64 (a + order.sum)) := by
  intro order
  induction order with
  | nil => intro a; simp [foldFetchAdds]
  | cons d rest ih =>
    intro a
    have step : foldFetchAdds (some (wrapI64 a)) (d :: rest) =
        foldFetchAdds (some (wrapI64 (wrapI64 a + d))) rest := rfl
    rw [step, wrapI64_add_left, ih (a + d), List.sum_cons, add_assoc]

/-- Modelled from the spec: a lightweight thread is a unit of work with a
completion flag; for the workloads of §8 its body is an atomic fetch-add of a
fixed contribution into a shared counter. -/
structure OafLightweightThread where
  contribution : Int
  done : Bool
deriving DecidableEq

/-- Modelled from the spec: the scheduler owns a worker pool sized at
construction and the lightweight threads spawned into it, in spawn order. -/
structure OafThreadScheduler where
  worker_count : Nat
  threads : List OafLightweightThread
deriving DecidableEq

/-- Modelled from the spec: `init(worker_count>0)` fails on a zero worker
count. -/
def oaf_scheduler_init (worker_count : Nat) : Option OafThreadScheduler :=
  if worker_count = 0 then none else some ⟨worker_count, []⟩

/-- Modelled from the spec: `spawn` appends a lightweight thread in state
Scheduled and returns its handle (its index among spawned threads). -/
def oaf_scheduler_spawn (s : OafThreadScheduler) (d : Int) : OafThreadScheduler × Nat :=
  (⟨s.worker_count, s.threads ++ [⟨d, false⟩]⟩, s.threads.length)

/-- Spawns one lightweight thread per contribution, in order. -/
def spawnAll (s : OafThreadScheduler) (ds : List Int) : OafThreadScheduler :=
  ds.foldl (fun s d => (oaf_scheduler_spawn s d).1) s

/-- Positional lookup among a scheduler's threads. -/
def threadAt : List OafLightweightThread → Nat → Option OafLightweightThread
  | [], _ => none
  | t :: _, 0 => some t
  | _ :: rest, n + 1 => threadAt rest n

/-- Modelled from the spec: `is_done` is true iff the handle's lightweight
thread reached Completed. -/
def oaf_lightweight_thread_is_done (s : OafThreadScheduler) (h : Nat) : Bool :=
  match threadAt s.threads h with
  | some t => t.done
  | none => false

/-- Contributions of the threads still Scheduled, in spawn order. -/
def pendingContributions (s : OafThreadScheduler) : List Int :=
  (s.threads.filter (fun t => t.done = false)).map OafLightweightThread.contribution

/-- Modelled from the spec: `run_all` drives every Scheduled lightweight
thread to Completed exactly once and returns how many completed during the
call. The workers may interleave the thread bodies arbitrarily, so the order
in which the fetch-adds hit the shared counter is an arbitrary permutation of
the pending contributions, supplied here as `order`. -/
def oaf_scheduler_run_all (s : OafThreadScheduler) (counter : Option Int)
    (order : List Int) : Nat × Option Int × OafThreadScheduler :=
  ((pendingContributions s).length,
   foldFetchAdds counter order,
   ⟨s.worker_count, s.threads.map (fun t => ⟨t.contribution, true⟩)⟩)

lemma spawnAll_threads :
    ∀ (ds : List Int) (wc : Nat) (l : List OafLightweightThread),
      spawnAll ⟨wc, l⟩ ds = ⟨wc, l ++ ds.map (fun d => ⟨d, false⟩)⟩ := by
  intro ds
  induction ds with
  | nil => intro wc l; simp [spawnAll]
  | cons d rest ih =>
    intro wc l
    have step : spawnAll (⟨wc, l⟩ : OafThreadScheduler) (d :: rest) =
        spawnAll ⟨wc, l ++ [⟨d, false⟩]⟩ rest := rfl
    rw [step, ih]
    simp

lemma pendingContributions_fresh (wc : Nat) (ds : List Int) :
    pendingContributions ⟨wc, ds.map (fun d => ⟨d, false⟩)⟩ = ds := by
  simp only [pendingContributions]
  induction ds with
  | nil => rfl
  | cons d rest ih => simpa using ih

lemma map_complete (ds : List Int) :
    (ds.map (fun d => (⟨d, false⟩ : OafLightweightThread))).map
      (fun t => (⟨t.contribution, true⟩ : OafLightweightThread)) =
    ds.map (fun d => ⟨d, true⟩) := by
  induction ds with
  | nil => rfl
  | cons d rest ih => simp [ih]

lemma threadAt_all_done :
    ∀ (l : List OafLightweightThread), (∀ t ∈ l, t.done = true) →
      ∀ h, h < l.length →
        (match threadAt l h with
         | some t => t.done
         | none => false) = true := by
  intro l
  induction l with
  | nil => intro _ h hh; simp at hh
  | cons t rest ih =>
    intro hall h hh
    cases h with
    | zero => simpa [threadAt] using hall t (by simp)
    | succ n =>
      have := ih (fun u hu => hall u (by simp [hu])) n (by simpa using hh)
      simpa [threadAt] using this

/-- C4: for every worker count > 0, every list of contributions spawned as
lightweight threads, and every execution interleaving (any permutation of the
contributions), `run_all` returns the number of spawned threads, the shared
counter initialized to 0 ends at the 64-bit sum of the contributions, and
every handle reports done. -/
theorem scheduler_run_all_spec (wc : Nat) (ds order : List Int)
    (hwc : 0 < wc) (hperm : List.Perm order ds) :
    oaf_scheduler_init wc = some ⟨wc, []⟩ ∧
    oaf_scheduler_run_all (spawnAll ⟨wc, []⟩ ds) (oaf_atomic_i64_init (some 0) 0) order =
      (ds.length, some (wrapI64 ds.sum),
       ⟨wc, ds.map (fun d => ⟨d, true⟩)⟩) ∧
    (∀ h, h < ds.length →
      oaf_lightweight_thread_is_done
        (oaf_scheduler_run_all (spawnAll ⟨wc, []⟩ ds)
          (oaf_atomic_i64_init (some 0) 0) order).2.2 h = true) := by
  have hspawn := spawnAll_threads ds wc []
  have hcount : foldFetchAdds (oaf_atomic_i64_init (some 0) 0) order =
      some (wrapI64 ds.sum) := by
    have h0 : oaf_atomic_i64_init (some 0) 0 = some (wrapI64 0) := by
      simp [oaf_atomic_i64_init, wrapI64_zero]
    rw [h0, foldFetchAdds_some order 0, hperm.sum_eq]
    simp
  refine ⟨by simp [oaf_scheduler_init]; omega, ?_, ?_⟩
  · rw [hspawn]
    simp only [oaf_scheduler_run_all, hcount, List.nil_append]
    rw [pendingContributions_fresh wc ds, map_complete ds]
  · intro h hh
    rw [hspawn]
    simp only [oaf_scheduler_run_all, oaf_lightweight_thread_is_done]
    have hall : ∀ t ∈ (List.map (fun d => (⟨d, false⟩ : OafLightweightThread)) ds).map
        (fun t => (⟨t.contribution, true⟩ : OafLightweightThread)), t.done = true := by
      intro t ht
      simp [List.map_map] at ht
      obtain ⟨d, _, rfl⟩ := ht
      rfl
    have := threadAt_all_done _ hall h (by simpa using hh)
    simpa using this

/-- Witness for C4: worker_count 2, contributions 1,2,3,4 executed in the
interleaving 3,1,4,2 — `run_all` reports 4 completions, the counter ends at
10, and the third handle (like every other) is done. -/
theorem scheduler_run_all_spec_witness :
    oaf_scheduler_init 2 = some ⟨2, []⟩ ∧
    oaf_scheduler_run_all (spawnAll ⟨2, []⟩ [1, 2, 3, 4]) (oaf_atomic_i64_init (some 0) 0)
        [3, 1, 4, 2] =
      (4, some 10, ⟨2, [⟨1, true⟩, ⟨2, true⟩, ⟨3, true⟩, ⟨4, true⟩]⟩) ∧
    oaf_lightweight_thread_is_done
      (oaf_scheduler_run_all (spawnAll ⟨2, []⟩ [1, 2, 3, 4])
        (oaf_atomic_i64_init (some 0) 0) [3, 1, 4, 2]).2.2 2 = true := by
  have h := scheduler_run_all_spec 2 [1, 2, 3, 4] [3, 1, 4, 2] (by decide) (by decide)
  exact ⟨h.1, by rw [h.2.1]; decide, h.2.2 2 (by decide)⟩

/-- Modelled from the spec: a thread pool owns a fixed worker set and a
bounded task queue; for the workloads of §8 each task is an atomic fetch-add
of a fixed contribution into a shared counter. -/
structure OafThreadPool where
  worker_count : Nat
  queue_capacity : Nat
  queue : List Int
deriving DecidableEq

/-- Modelled from the spec: `init(worker_count>0, queue_capacity>0)` fails on
a zero worker count or zero capacity. -/
def oaf_thread_pool_init (worker_count queue_capacity : Nat) : Option OafThreadPool :=
  if worker_count = 0 ∨ queue_capacity = 0 then none
  else some ⟨worker_count, queue_capacity, []⟩

/-- Modelled from the spec: `submit` enqueues a task, failing when the queue
is at capacity. -/
def oaf_thread_pool_submit (p : OafThreadPool) (d : Int) : Bool × OafThreadPool :=
  if p.queue_capacity ≤ p.queue.length then (false, p)
  else (true, ⟨p.worker_count, p.queue_capacity, p.queue ++ [d]⟩)

/-- Submits a list of tasks in order; the flag is true iff every submission
was accepted. -/
def submitAll (p : OafThreadPool) : List Int → Bool × OafThreadPool
  | [] => (true, p)
  | d :: rest =>
    match oaf_thread_pool_submit p d with
    | (true, p1) => submitAll p1 rest
    | (false, p1) => (false, p1)

/-- Modelled from the spec: `wait_idle` blocks until the queue is empty and no
worker is running a task; by then every submitted task has executed exactly
once, in an arbitrary interleaving (`order`, a permutation of the queued
contributions) against the shared counter. -/
def oaf_thread_pool_wait_idle (p : OafThreadPool) (counter : Option Int)
    (order : List Int) : Bool × Option Int × OafThreadPool :=
  (true, foldFetchAdds counter order, ⟨p.worker_count, p.queue_capacity, []⟩)

lemma submitAll_ok :
    ∀ (ds : List Int) (wc cap : Nat) (q : List Int),
      q.length + ds.length ≤ cap →
      submitAll (⟨wc, cap, q⟩ : OafThreadPool) ds = (true, ⟨wc, cap, q ++ ds⟩) := by
  intro ds
  induction ds with
  | nil => intro wc cap q h; simp [submitAll]
  | cons d rest ih =>
    intro wc cap q h
    have hlt : ¬ cap ≤ q.length := by
      simp only [List.length_cons] at h
      omega
    have hsub : oaf_thread_pool_submit (⟨wc, cap, q⟩ : OafThreadPool) d =
        (true, ⟨wc, cap, q ++ [d]⟩) := by
      simp [oaf_thread_pool_submit, hlt]
    have hrest := ih wc cap (q ++ [d]) (by simp at h ⊢; omega)
    simp [submitAll, hsub, hrest]

/-- C7: for every pool with worker count ≥ 1 and queue capacity ≥ M, after
successfully submitting M counter-increment tasks with contributions `ds`,
a returning `wait_idle` guarantees the shared counter (initialized to 0)
equals the 64-bit sum of the contributions, for every execution interleaving
of the tasks. -/
theorem thread_pool_wait_idle_spec (wc cap : Nat) (ds order : List Int)
    (hwc : 0 < wc) (hcap : 0 < cap) (hlen : ds.length ≤ cap)
    (hperm : List.Perm order ds) :
    oaf_thread_pool_init wc cap = some ⟨wc, cap, []⟩ ∧
    submitAll ⟨wc, cap, []⟩ ds = (true, ⟨wc, cap, ds⟩) ∧
    oaf_thread_pool_wait_idle ⟨wc, cap, ds⟩ (oaf_atomic_i64_init (some 0) 0) order =
      (true, some (wrapI64 ds.sum), ⟨wc, cap, []⟩) := by
  refine ⟨by simp [oaf_thread_pool_init]; omega, ?_, ?_⟩
  · have h := submitAll_ok ds wc cap [] (by simpa using hlen)
    simpa using h
  · have h0 : oaf_atomic_i64_init (some 0) 0 = some (wrapI64 0) := by
      simp [oaf_atomic_i64_init, wrapI64_zero]
    simp only [oaf_thread_pool_wait_idle, h0, foldFetchAdds_some order 0, hperm.sum_eq]
    simp

/-- Witness for C7: pool(workers=4, queue_capacity=64), tasks adding 1..8
executed in reverse interleaving — `wait_idle` returns with the counter at
36. -/
theorem thread_pool_wait_idle_spec_witness :
    oaf_thread_pool_init 4 64 = some ⟨4, 64, []⟩ ∧
    submitAll ⟨4, 64, []⟩ [1, 2, 3, 4, 5, 6, 7, 8] =
      (true, ⟨4, 64, [1, 2, 3, 4, 5, 6, 7, 8]⟩) ∧
    oaf_thread_pool_wait_idle ⟨4, 64, [1, 2, 3, 4, 5, 6, 7, 8]⟩
        (oaf_atomic_i64_init (some 0) 0) [8, 7, 6, 5, 4, 3, 2, 1] =
      (true, some 36, ⟨4, 64, []⟩) := by
  have h := thread_pool_wait_idle_spec 4 64 [1, 2, 3, 4, 5, 6, 7, 8]
    [8, 7, 6, 5, 4, 3, 2, 1] (by decide) (by decide) (by decide) (by decide)
  exact ⟨h.1, h.2.1, by rw [h.2.2]; decide⟩

/-- Arithmetic (unwrapped) sum of `value_fn` over the index range
`[start, start + len)`. -/
def sumRange (value_fn : Nat → Int) (start : Nat) : Nat → Int
  | 0 => 0
  | n + 1 => sumRange value_fn start n + value_fn (start + n)

/-- Modelled from the spec: a chunk's partial sum accumulates
`value_fn(index)` over its contiguous index range with 64-bit addition. -/
def chunkPartial (value_fn : Nat → Int) (start : Nat) : Nat → Int
  | 0 => 0
  | n + 1 => wrapI64 (chunkPartial value_fn start n + value_fn (start + n))

/-- Partial sums of the contiguous chunks described by `chunk_sizes`, laid
end to end from `start`. -/
def chunkPartialSums (value_fn : Nat → Int) : Nat → List Nat → List Int
  | _, [] => []
  | start, n :: rest => chunkPartial value_fn start n :: chunkPartialSums value_fn (start + n) rest

/-- Modelled from the spec: the cross-chunk combination step of
`parallel_reduce_i64`, 64-bit addition of the partial sums in whatever order
the chunks finish. -/
def combinePartials (partials : List Int) : Int :=
  partials.foldl (fun acc p => wrapI64 (acc + p)) 0

/-- Modelled from the spec: `oaf_parallel_reduce_i64` partitions `[0, count)`
into contiguous chunks (the partition actually used is `chunk_sizes`, chosen
by the implementation from the chunk hint and worker count), computes each
chunk's partial sum with 64-bit addition, and combines the partials into the
grand total; it succeeds whenever pool submission does, which the model takes
for granted. -/
def oaf_parallel_reduce_i64 (_count : Nat) (chunk_sizes : List Nat)
    (value_fn : Nat → Int) : Bool × Int :=
  (true, combinePartials (chunkPartialSums value_fn 0 chunk_sizes))

lemma combinePartials_from (l : List Int) :
    ∀ a : Int, l.foldl (fun acc p => wrapI64 (acc + p)) (wrapI64 a) = wrapI64 (a + l.sum) := by
  induction l with
  | nil => intro a; simp [wrapI64]
  | cons p rest ih =>
    intro a
    have step : (p :: rest).foldl (fun acc p => wrapI64 (acc + p)) (wrapI64 a) =
        rest.foldl (fun acc p => wrapI64 (acc + p)) (wrapI64 (wrapI64 a + p)) := rfl
    rw [step, wrapI64_add_left, ih (a + p), List.sum_cons, add_assoc]

lemma chunkPartial_eq_wrap (value_fn : Nat → Int) (start : Nat) :
    ∀ n, chunkPartial value_fn start n = wrapI64 (sumRange value_fn start n) := by
  intro n
  induction n with
  | zero => simp [chunkPartial, sumRange, wrapI64_zero]
  | succ n ih =>
    simp only [chunkPartial, sumRange, ih, wrapI64_add_left]

lemma sumRange_split (value_fn : Nat → Int) :
    ∀ (b : Nat) (start a : Nat),
      sumRange value_fn start (a + b) =
        sumRange value_fn start a + sumRange value_fn (start + a) b := by
  intro b
  induction b with
  | zero => intro start a; simp [sumRange]
  | succ b ih =>
    intro start a
    have harg : start + (a + b) = start + a + b := by omega
    calc sumRange value_fn start (a + (b + 1))
        = sumRange value_fn start (a + b) + value_fn (start + (a + b)) := rfl
      _ = sumRange value_fn start a + sumRange value_fn (start + a) b +
            value_fn (start + a + b) := by rw [ih, harg]
      _ = sumRange value_fn start a + sumRange value_fn (start + a) (b + 1) := by
            rw [add_assoc]; rfl

lemma wrapI64_add_right (a b : Int) : wrapI64 (a + wrapI64 b) = wrapI64 (a + b) := by
  rw [add_comm, wrapI64_add_left, add_comm]

lemma wrapI64_add_congr_right (x : Int) {s t : Int} (h : wrapI64 s = wrapI64 t) :
    wrapI64 (x + s) = wrapI64 (x + t) := by
  rw [← wrapI64_add_right x s, h, wrapI64_add_right]

lemma chunkSums_total (value_fn : Nat → Int) :
    ∀ (cs : List Nat) (start : Nat),
      wrapI64 (chunkPartialSums value_fn start cs).sum =
        wrapI64 (sumRange value_fn start cs.sum) := by
  intro cs
  induction cs with
  | nil => intro start; rfl
  | cons n rest ih =>
    intro start
    have h1 : (chunkPartialSums value_fn start (n :: rest)).sum =
        chunkPartial value_fn start n + (chunkPartialSums value_fn (start + n) rest).sum := by
      simp [chunkPartialSums]
    rw [h1, chunkPartial_eq_wrap value_fn start n, wrapI64_add_left,
      wrapI64_add_congr_right (sumRange value_fn start n) (ih (start + n)),
      ← sumRange_split value_fn rest.sum start n]
    have h3 : (n :: rest).sum = n + rest.sum := by simp
    rw [h3]

lemma combinePartials_eq_wrap (l : List Int) : combinePartials l = wrapI64 l.sum := by
  have h := combinePartials_from l 0
  rw [wrapI64_zero] at h
  simpa [combinePartials] using h

/-- C8: a successful `parallel_reduce_i64` over `[0, count)` yields the
64-bit sum of `value_fn(i)` over the whole range, for every chunk partition
of the range and every cross-chunk combination order (hence independent of
chunk hint and worker count). -/
theorem parallel_reduce_spec (count : Nat) (chunk_sizes : List Nat)
    (value_fn : Nat → Int) (order : List Int)
    (hcs : chunk_sizes.sum = count)
    (hperm : List.Perm order (chunkPartialSums value_fn 0 chunk_sizes)) :
    combinePartials order = wrapI64 (sumRange value_fn 0 count) ∧
    oaf_parallel_reduce_i64 count chunk_sizes value_fn =
      (true, wrapI64 (sumRange value_fn 0 count)) := by
  have hmain : wrapI64 (chunkPartialSums value_fn 0 chunk_sizes).sum =
      wrapI64 (sumRange value_fn 0 count) := by
    rw [← hcs]
    exact chunkSums_total value_fn chunk_sizes 0
  constructor
  · rw [combinePartials_eq_wrap, hperm.sum_eq, hmain]
  · show (true, combinePartials (chunkPartialSums value_fn 0 chunk_sizes)) = _
    rw [combinePartials_eq_wrap, hmain]

/-- The example program's reduce input: `mapped[i] = (i + 1) * 3`. -/
def exampleReduceInput : Nat → Int := fun i => ((i : Int) + 1) * 3

set_option maxRecDepth 8192 in
/-- Witness for C8: count 256 split into four chunks of 64, partials combined
in reverse completion order — the total is 98688. -/
theorem parallel_reduce_spec_witness :
    oaf_parallel_reduce_i64 256 [64, 64, 64, 64] exampleReduceInput = (true, 98688) ∧
    combinePartials ((chunkPartialSums exampleReduceInput 0 [64, 64, 64, 64]).reverse) =
      98688 := by
  have h := parallel_reduce_spec 256 [64, 64, 64, 64] exampleReduceInput
    ((chunkPartialSums exampleReduceInput 0 [64, 64, 64, 64]).reverse)
    (by decide) (List.reverse_perm _)
  exact ⟨h.2.trans (by decide), h.1.trans (by decide)⟩

/-- Modelled from the spec: a future owns a one-shot result slot and a
readiness signal; once the wrapped task completes, the slot holds the stored
result and the signal is raised. -/
structure OafFuture (α : Type) where
  ready : Bool
  slot : Option α
deriving DecidableEq

/-- Modelled from the spec: `await` blocks until the readiness signal is
raised, then yields the stored result, leaving the cached slot intact; on a
not-yet-ready future the model reports the suspension as `none`. -/
def oaf_future_await {α : Type} (f : OafFuture α) : Option α × OafFuture α :=
  if f.ready = true then (f.slot, f) else (none, f)

/-- Results of `n` successive `await` calls on a future, threading the future
state through each call. -/
def awaitResults {α : Type} : OafFuture α → Nat → List (Option α)
  | _, 0 => []
  | f, n + 1 => (oaf_future_await f).1 :: awaitResults (oaf_future_await f).2 n

/-- C9: on a future whose wrapped task has completed (signal raised, result
stored), every one of any number of successive `await` calls succeeds and
yields the identical stored result. -/
theorem future_await_idempotent (α : Type) (f : OafFuture α) (r : α)
    (hready : f.ready = true) (hslot : f.slot = some r) :
    ∀ n, awaitResults f n = List.replicate n (some r) := by
  have hawait : oaf_future_await f = (some r, f) := by
    simp [oaf_future_await, hready, hslot]
  intro n
  induction n with
  | zero => rfl
  | succ n ih =>
    show (oaf_future_await f).1 :: awaitResults (oaf_future_await f).2 n = _
    rw [hawait]
    simpa [List.replicate] using ih

/-- Witness for C9: a completed future holding 42 awaited twice yields 42
both times. -/
theorem future_await_idempotent_witness :
    awaitResults (⟨true, some 42⟩ : OafFuture Nat) 2 = [some 42, some 42] :=
  future_await_idempotent Nat ⟨true, some 42⟩ 42 rfl rfl 2

end Oaf
